import Mathlib

/-!
Verification of the Drain3 `examples/evaluator.py` scoring core.

The evaluator compares two labelings of the same set of log lines: a
ground-truth assignment of event ids and a predicted (parsed) assignment.
After alignment on `LineId`, `get_accuracy` computes pairwise
precision / recall / F-measure and an exact-match accuracy.

Embedding notes:
* A pandas `Series` value may be null (`NaN`); we model labels as
  `Option Nat` (`none` = null).  `value_counts()` drops nulls, and
  `series == x` is false on nulls — both are reflected below.
* The two series passed to `get_accuracy` share one index, so an aligned
  input is a single list of `Row`s `(id, gt, pred)`.
* Counts are exact naturals and the final ratios exact rationals; the
  float64 arithmetic that `scipy.special.comb` introduces is modelled
  separately (`fl53`, `combFloat2`, `pairsOfFloat`).
-/

/-- One aligned log line: its `LineId`, its ground-truth event label and its
predicted event label.  `none` models a null (`NaN`) label. -/
structure Row where
  id : Nat
  gt : Option Nat
  pred : Option Nat
deriving DecidableEq, Repr

/-- `scipy.special.comb` / binomial coefficient (exact value). -/
def comb (n k : Nat) : Nat := Nat.choose n k

/-- The ground-truth label values of an aligned input, nulls dropped
(as pandas `value_counts` and `series == x` both ignore nulls). -/
def gtLabels (rows : List Row) : List Nat := rows.filterMap Row.gt

/-- The predicted label values of an aligned input, nulls dropped. -/
def predLabels (rows : List Row) : List Nat := rows.filterMap Row.pred

/-- `value_counts()` of a label list: the multiplicity of each distinct
(non-null) value, one entry per distinct value. -/
def valueCounts (l : List Nat) : List Nat := l.dedup.map (fun v => l.count v)

/-- The pair-count accumulation loop of `get_accuracy`:
`for count in value_counts: if count > 1: pairs += comb(count, 2)`. -/
def pairsOf (counts : List Nat) : Nat :=
  (counts.map (fun c => if 1 < c then comb c 2 else 0)).sum

/-- `real_pairs` of `get_accuracy` (line 40-44 of evaluator.py). -/
def real_pairs (rows : List Row) : Nat := pairsOf (valueCounts (gtLabels rows))

/-- `parsed_pairs` of `get_accuracy` (line 46-50 of evaluator.py). -/
def parsed_pairs (rows : List Row) : Nat := pairsOf (valueCounts (predLabels rows))

/-- `series_parsedlog[series_parsedlog == parsed_eventId]`: the rows of one
predicted class. -/
def rowsWithPred (rows : List Row) (p : Nat) : List Row :=
  rows.filter (fun r => r.pred == some p)

/-- `series_groundtruth[logIds]` restricted to one predicted class, as the
list of its (non-null) ground-truth labels. -/
def subGt (rows : List Row) (p : Nat) : List Nat := gtLabels (rowsWithPred rows p)

/-- `accurate_pairs`: for every predicted class, the pairs of its members
that also share a ground-truth label (line 52-72 of evaluator.py). -/
def accurate_pairs (rows : List Row) : Nat :=
  ((predLabels rows).dedup.map (fun p => pairsOf (valueCounts (subGt rows p)))).sum

/-- The `accurate_events` contribution of one predicted class:
if its members carry exactly one distinct ground-truth label and the class
size equals that label's total multiplicity, the class size; else 0
(line 60-64 of evaluator.py). -/
def eventsFor (rows : List Row) (p : Nat) : Nat :=
  let sub := rowsWithPred rows p
  let vc := (subGt rows p).dedup
  if vc.length = 1 then
    if sub.length = (gtLabels rows).count (vc.headD 0) then sub.length else 0
  else 0

/-- `accurate_events` accumulated over all predicted classes. -/
def accurate_events (rows : List Row) : Nat :=
  ((predLabels rows).dedup.map (eventsFor rows)).sum

/-- `precision` (line 75 of evaluator.py), with the zero-fill guard. -/
def precision (rows : List Row) : ℚ :=
  if parsed_pairs rows ≠ 0 then (accurate_pairs rows : ℚ) / parsed_pairs rows else 0

/-- `recall` (line 76 of evaluator.py), with the zero-fill guard. -/
def recall' (rows : List Row) : ℚ :=
  if real_pairs rows ≠ 0 then (accurate_pairs rows : ℚ) / real_pairs rows else 0

/-- `f_measure` (line 77 of evaluator.py), with the zero-fill guard. -/
def f_measure (rows : List Row) : ℚ :=
  if precision rows + recall' rows ≠ 0 then
    2 * precision rows * recall' rows / (precision rows + recall' rows)
  else 0

/-- `accuracy` (line 78 of evaluator.py): exact-match events over the size
of the ground-truth series (which counts every aligned row). -/
def accuracy (rows : List Row) : ℚ :=
  if rows.length ≠ 0 then (accurate_events rows : ℚ) / rows.length else 0

/-- `get_accuracy`: the four scores returned for one aligned input. -/
def get_accuracy (rows : List Row) : ℚ × ℚ × ℚ × ℚ :=
  (precision rows, recall' rows, f_measure rows, accuracy rows)

/-- The diagnostic record printed for one predicted class when it is not an
exact match: `(parsed_eventId, groundtruth label list, member count)`
(line 58, 66-68 of evaluator.py). -/
def classTrace (rows : List Row) (p : Nat) : Option (Nat × List Nat × Nat) :=
  let sub := rowsWithPred rows p
  let vc := (subGt rows p).dedup
  if vc.length = 1 then
    if sub.length = (gtLabels rows).count (vc.headD 0) then none
    else some (p, vc, sub.length)
  else some (p, vc, sub.length)

/-- `get_accuracy` with its `debug` flag: the scores together with the
diagnostic trace that is printed when `debug` is set. -/
def get_accuracy_debug (rows : List Row) (debug : Bool) :
    (ℚ × ℚ × ℚ × ℚ) × List (Nat × List Nat × Nat) :=
  (get_accuracy rows,
   if debug then (predLabels rows).dedup.filterMap (classTrace rows) else [])

/-- One input table of `evaluate`: whether it has a `LineId` column, and its
`(LineId, EventId)` entries. -/
structure Table where
  hasLineId : Bool
  entries : List (Nat × Option Nat)

/-- The alignment step of `evaluate` (line 94-104 of evaluator.py): drop
ground-truth entries with a null label, keep the line ids present in both
inputs, and pair each surviving ground-truth label with the predicted label
stored at the same line id. -/
def alignRows (gt pred : List (Nat × Option Nat)) : List Row :=
  let gtv := gt.filter (fun e => !(e.2 == none))
  ((gtv.filter (fun e => (pred.map Prod.fst).contains e.1)).map
    (fun e => ⟨e.1, e.2, ((pred.find? (fun q => q.1 == e.1)).map Prod.snd).getD none⟩))

/-- `evaluate` (line 81-108 of evaluator.py): require the `LineId` column in
both inputs, align, score, and return `(f_measure, accuracy)`. -/
def evaluate (t1 t2 : Table) : Except String (ℚ × ℚ) :=
  if !t1.hasLineId || !t2.hasLineId then
    Except.error "Both groundtruth and parsed CSV must have a LineId column!"
  else
    let rows := alignRows t1.entries t2.entries
    Except.ok (f_measure rows, accuracy rows)

/-! ### Pair-counting infrastructure -/

/-- Total pair count of a label multiset: `Σ C(count g, 2)` over distinct values. -/
def pcM (m : Multiset Nat) : Nat := ∑ g ∈ m.toFinset, comb (Multiset.count g m) 2

theorem comb_two_eq_zero_of_le_one {c : Nat} (h : c ≤ 1) : comb c 2 = 0 :=
  Nat.choose_eq_zero_of_lt (by omega)

theorem pairsOf_eq_sum (cs : List Nat) :
    pairsOf cs = (cs.map (fun c => comb c 2)).sum := by
  unfold pairsOf
  refine congrArg List.sum (List.map_congr_left ?_)
  intro c _
  by_cases h : 1 < c
  · simp [h]
  · rw [if_neg h, comb_two_eq_zero_of_le_one (by omega)]

theorem toFinset_dedup' (l : List Nat) : l.dedup.toFinset = l.toFinset := by
  ext a
  simp [List.mem_toFinset, List.mem_dedup]

theorem pairsOf_valueCounts (l : List Nat) : pairsOf (valueCounts l) = pcM ↑l := by
  rw [pairsOf_eq_sum, valueCounts, List.map_map, pcM, List.toFinset_coe,
      ← toFinset_dedup' l, List.sum_toFinset _ (List.nodup_dedup l)]
  refine congrArg List.sum (List.map_congr_left ?_)
  intro v _
  simp [Function.comp, Multiset.coe_count]

theorem choose_two_add (a b : Nat) :
    (a + b).choose 2 = a.choose 2 + b.choose 2 + a * b := by
  induction b with
  | zero => simp
  | succ b ih =>
      have h1 : a + (b + 1) = (a + b) + 1 := by omega
      have h2 : ((a + b) + 1).choose 2 = (a + b).choose 1 + (a + b).choose 2 :=
        Nat.choose_succ_succ (a + b) 1
      have h3 : (b + 1).choose 2 = b.choose 1 + b.choose 2 :=
        Nat.choose_succ_succ b 1
      rw [h1, h2, h3, Nat.choose_one_right, Nat.choose_one_right, ih, Nat.mul_succ]
      omega

theorem comb_add_le (a b : Nat) : comb a 2 + comb b 2 ≤ comb (a + b) 2 := by
  unfold comb
  rw [choose_two_add]
  omega

theorem comb_mono {a b : Nat} (h : a ≤ b) : comb a 2 ≤ comb b 2 :=
  Nat.choose_le_choose 2 h

theorem sum_comb_le (s : Finset Nat) (f : Nat → Nat) :
    (∑ g ∈ s, comb (f g) 2) ≤ comb (∑ g ∈ s, f g) 2 := by
  classical
  induction s using Finset.induction_on with
  | empty => simp
  | insert h ih =>
      rw [Finset.sum_insert h, Finset.sum_insert h]
      calc comb (f _) 2 + _ ≤ comb (f _) 2 + comb _ 2 := Nat.add_le_add_left ih _
        _ ≤ _ := comb_add_le _ _

theorem pcM_le_comb_card (m : Multiset Nat) : pcM m ≤ comb (Multiset.card m) 2 := by
  unfold pcM
  calc (∑ g ∈ m.toFinset, comb (Multiset.count g m) 2)
      ≤ comb (∑ g ∈ m.toFinset, Multiset.count g m) 2 := sum_comb_le _ _
    _ = comb (Multiset.card m) 2 := by rw [Multiset.toFinset_sum_count_eq]

theorem pcM_mono {m n : Multiset Nat} (h : m ≤ n) : pcM m ≤ pcM n := by
  unfold pcM
  calc (∑ g ∈ m.toFinset, comb (Multiset.count g m) 2)
      ≤ ∑ g ∈ m.toFinset, comb (Multiset.count g n) 2 :=
        Finset.sum_le_sum (fun g _ => comb_mono (Multiset.count_le_of_le g h))
    _ ≤ ∑ g ∈ n.toFinset, comb (Multiset.count g n) 2 :=
        Finset.sum_le_sum_of_subset (Multiset.toFinset_subset.mpr (Multiset.subset_of_le h))

theorem pcM_add_le (m n : Multiset Nat) : pcM m + pcM n ≤ pcM (m + n) := by
  unfold pcM
  have hm : (∑ g ∈ m.toFinset, comb (Multiset.count g m) 2)
      ≤ ∑ g ∈ (m + n).toFinset, comb (Multiset.count g m) 2 :=
    Finset.sum_le_sum_of_subset
      (by rw [Multiset.toFinset_add]; exact Finset.subset_union_left)
  have hn : (∑ g ∈ n.toFinset, comb (Multiset.count g n) 2)
      ≤ ∑ g ∈ (m + n).toFinset, comb (Multiset.count g n) 2 :=
    Finset.sum_le_sum_of_subset
      (by rw [Multiset.toFinset_add]; exact Finset.subset_union_right)
  calc (∑ g ∈ m.toFinset, comb (Multiset.count g m) 2)
        + ∑ g ∈ n.toFinset, comb (Multiset.count g n) 2
      ≤ (∑ g ∈ (m + n).toFinset, comb (Multiset.count g m) 2)
        + ∑ g ∈ (m + n).toFinset, comb (Multiset.count g n) 2 := Nat.add_le_add hm hn
    _ = ∑ g ∈ (m + n).toFinset, (comb (Multiset.count g m) 2 + comb (Multiset.count g n) 2) :=
        Finset.sum_add_distrib.symm
    _ ≤ ∑ g ∈ (m + n).toFinset, comb (Multiset.count g m + Multiset.count g n) 2 :=
        Finset.sum_le_sum (fun g _ => comb_add_le _ _)
    _ = ∑ g ∈ (m + n).toFinset, comb (Multiset.count g (m + n)) 2 := by
        simp [Multiset.count_add]

theorem sum_pcM_le (ms : List (Multiset Nat)) : (ms.map pcM).sum ≤ pcM ms.sum := by
  induction ms with
  | nil => simp [pcM]
  | cons m ms ih =>
      simp only [List.map_cons, List.sum_cons]
      calc pcM m + (ms.map pcM).sum ≤ pcM m + pcM ms.sum := Nat.add_le_add_left ih _
        _ ≤ pcM (m + ms.sum) := pcM_add_le _ _

theorem rowsWithPred_filter_ne (rows : List Row) {p q : Nat} (hpq : q ≠ p) :
    rowsWithPred (rows.filter (fun r => !(r.pred == some p))) q = rowsWithPred rows q := by
  unfold rowsWithPred
  rw [List.filter_filter]
  refine List.filter_congr ?_
  intro r _
  cases hr : r.pred with
  | none => simp
  | some x =>
      by_cases hx : x = q
      · subst hx
        simp [hr, hpq]
      · simp [hr, hx]

theorem gtLabels_split (rows : List Row) (p : Nat) :
    (↑(gtLabels (rows.filter (fun r => r.pred == some p))) : Multiset Nat)
      + ↑(gtLabels (rows.filter (fun r => !(r.pred == some p))))
      = ↑(gtLabels rows) := by
  have hperm : (gtLabels (rows.filter (fun r => r.pred == some p))
      ++ gtLabels (rows.filter (fun r => !(r.pred == some p)))).Perm (gtLabels rows) := by
    unfold gtLabels
    rw [← List.filterMap_append]
    exact List.Perm.filterMap _ (List.filter_append_perm _ rows)
  calc (↑(gtLabels (rows.filter (fun r => r.pred == some p))) : Multiset Nat)
        + ↑(gtLabels (rows.filter (fun r => !(r.pred == some p))))
      = ↑(gtLabels (rows.filter (fun r => r.pred == some p))
          ++ gtLabels (rows.filter (fun r => !(r.pred == some p)))) := rfl
    _ = ↑(gtLabels rows) := Multiset.coe_eq_coe.mpr hperm

theorem sum_subGt_le (ps : List Nat) (rows : List Row) (hps : ps.Nodup) :
    (ps.map (fun p => (↑(subGt rows p) : Multiset Nat))).sum ≤ ↑(gtLabels rows) := by
  induction ps generalizing rows with
  | nil => simp
  | cons p ps ih =>
      rw [List.nodup_cons] at hps
      simp only [List.map_cons, List.sum_cons]
      have h1 : (ps.map (fun q => (↑(subGt rows q) : Multiset Nat))).sum
          = (ps.map (fun q =>
              (↑(subGt (rows.filter (fun r => !(r.pred == some p))) q) : Multiset Nat))).sum := by
        refine congrArg _ (List.map_congr_left ?_)
        intro q hq
        rw [subGt, subGt, rowsWithPred_filter_ne rows (fun h => hps.1 (by rwa [h] at hq))]
      rw [h1]
      calc (↑(subGt rows p) : Multiset Nat)
            + (ps.map (fun q =>
                (↑(subGt (rows.filter (fun r => !(r.pred == some p))) q) : Multiset Nat))).sum
          ≤ ↑(subGt rows p) + ↑(gtLabels (rows.filter (fun r => !(r.pred == some p)))) :=
            add_le_add_left (ih _ hps.2) _
        _ = ↑(gtLabels rows) := gtLabels_split rows p

theorem sum_rowsWithPred_length_le (ps : List Nat) (rows : List Row) (hps : ps.Nodup) :
    (ps.map (fun p => (rowsWithPred rows p).length)).sum ≤ rows.length := by
  induction ps generalizing rows with
  | nil => simp
  | cons p ps ih =>
      rw [List.nodup_cons] at hps
      simp only [List.map_cons, List.sum_cons]
      have h1 : (ps.map (fun q => (rowsWithPred rows q).length)).sum
          = (ps.map (fun q =>
              (rowsWithPred (rows.filter (fun r => !(r.pred == some p))) q).length)).sum := by
        refine congrArg _ (List.map_congr_left ?_)
        intro q hq
        rw [rowsWithPred_filter_ne rows (fun h => hps.1 (by rwa [h] at hq))]
      have h2 : rows.length = (rows.filter (fun r => r.pred == some p)).length
          + (rows.filter (fun r => !(r.pred == some p))).length := by
        have h3 := (List.filter_append_perm (fun r => r.pred == some p) rows).length_eq
        rw [List.length_append] at h3
        omega
      rw [h1, h2]
      exact Nat.add_le_add_left (ih _ hps.2) _

/-! ### The three count inequalities behind the score bounds -/

theorem accurate_le_real (rows : List Row) : accurate_pairs rows ≤ real_pairs rows := by
  unfold accurate_pairs real_pairs
  calc ((predLabels rows).dedup.map (fun p => pairsOf (valueCounts (subGt rows p)))).sum
      = (((predLabels rows).dedup.map
          (fun p => (↑(subGt rows p) : Multiset Nat))).map pcM).sum := by
        rw [List.map_map]
        exact congrArg _ (List.map_congr_left (fun p _ => pairsOf_valueCounts _))
    _ ≤ pcM ((predLabels rows).dedup.map (fun p => (↑(subGt rows p) : Multiset Nat))).sum :=
        sum_pcM_le _
    _ ≤ pcM ↑(gtLabels rows) :=
        pcM_mono (sum_subGt_le _ rows (List.nodup_dedup _))
    _ = pairsOf (valueCounts (gtLabels rows)) := (pairsOf_valueCounts _).symm

theorem length_rowsWithPred_eq_count (rows : List Row) (p : Nat) :
    (rowsWithPred rows p).length = (predLabels rows).count p := by
  unfold rowsWithPred predLabels
  rw [List.count_filterMap, List.countP_eq_length_filter]

theorem accurate_le_parsed (rows : List Row) : accurate_pairs rows ≤ parsed_pairs rows := by
  unfold accurate_pairs parsed_pairs
  rw [pairsOf_eq_sum, valueCounts, List.map_map]
  refine List.sum_le_sum ?_
  intro p _
  calc pairsOf (valueCounts (subGt rows p))
      = pcM ↑(subGt rows p) := pairsOf_valueCounts _
    _ ≤ comb (Multiset.card (↑(subGt rows p) : Multiset Nat)) 2 := pcM_le_comb_card _
    _ = comb (subGt rows p).length 2 := by rw [Multiset.coe_card]
    _ ≤ comb (rowsWithPred rows p).length 2 := comb_mono (List.length_filterMap_le _ _)
    _ = comb ((predLabels rows).count p) 2 := by rw [length_rowsWithPred_eq_count]

theorem eventsFor_le_length (rows : List Row) (p : Nat) :
    eventsFor rows p ≤ (rowsWithPred rows p).length := by
  unfold eventsFor
  dsimp only
  split
  · split
    · exact le_refl _
    · exact Nat.zero_le _
  · exact Nat.zero_le _

theorem accurate_events_le_length (rows : List Row) : accurate_events rows ≤ rows.length := by
  unfold accurate_events
  calc ((predLabels rows).dedup.map (eventsFor rows)).sum
      ≤ ((predLabels rows).dedup.map (fun p => (rowsWithPred rows p).length)).sum :=
        List.sum_le_sum (fun p _ => eventsFor_le_length rows p)
    _ ≤ rows.length := sum_rowsWithPred_length_le _ rows (List.nodup_dedup _)

/-! ### Score bounds -/

theorem ratio_mem_unit {a b : Nat} (hab : a ≤ b) (hb : b ≠ 0) :
    0 ≤ (a : ℚ) / b ∧ (a : ℚ) / b ≤ 1 := by
  have hb' : (0 : ℚ) < b := by
    exact_mod_cast Nat.pos_of_ne_zero hb
  refine ⟨div_nonneg (by positivity) hb'.le, ?_⟩
  rw [div_le_one hb']
  exact_mod_cast hab

theorem precision_bounds (rows : List Row) : 0 ≤ precision rows ∧ precision rows ≤ 1 := by
  unfold precision
  by_cases h : parsed_pairs rows ≠ 0
  · rw [if_pos h]
    exact ratio_mem_unit (accurate_le_parsed rows) h
  · rw [if_neg h]
    norm_num

theorem recall_bounds (rows : List Row) : 0 ≤ recall' rows ∧ recall' rows ≤ 1 := by
  unfold recall'
  by_cases h : real_pairs rows ≠ 0
  · rw [if_pos h]
    exact ratio_mem_unit (accurate_le_real rows) h
  · rw [if_neg h]
    norm_num

theorem accuracy_bounds (rows : List Row) : 0 ≤ accuracy rows ∧ accuracy rows ≤ 1 := by
  unfold accuracy
  by_cases h : rows.length ≠ 0
  · rw [if_pos h]
    exact ratio_mem_unit (accurate_events_le_length rows) h
  · rw [if_neg h]
    norm_num

theorem f_measure_bounds (rows : List Row) : 0 ≤ f_measure rows ∧ f_measure rows ≤ 1 := by
  obtain ⟨hp0, hp1⟩ := precision_bounds rows
  obtain ⟨hr0, hr1⟩ := recall_bounds rows
  unfold f_measure
  by_cases h : precision rows + recall' rows ≠ 0
  · rw [if_pos h]
    have hpr : 0 < precision rows + recall' rows :=
      lt_of_le_of_ne (by linarith) (Ne.symm h)
    constructor
    · positivity
    · rw [div_le_one hpr]
      nlinarith [mul_nonneg hp0 (sub_nonneg.mpr hr1), mul_nonneg hr0 (sub_nonneg.mpr hp1)]
  · rw [if_neg h]
    norm_num

/-- C1: for every aligned pair of labelings, the four values returned by
`get_accuracy` — precision, recall, f_measure, accuracy — all lie in `[0, 1]`. -/
theorem c1_scores_in_unit_interval (rows : List Row) :
    (0 ≤ (get_accuracy rows).1 ∧ (get_accuracy rows).1 ≤ 1) ∧
    (0 ≤ (get_accuracy rows).2.1 ∧ (get_accuracy rows).2.1 ≤ 1) ∧
    (0 ≤ (get_accuracy rows).2.2.1 ∧ (get_accuracy rows).2.2.1 ≤ 1) ∧
    (0 ≤ (get_accuracy rows).2.2.2 ∧ (get_accuracy rows).2.2.2 ≤ 1) :=
  ⟨precision_bounds rows, recall_bounds rows, f_measure_bounds rows, accuracy_bounds rows⟩

/-! ### Concrete scenarios -/

/-- Scenario B of the spec: ground truth `[X,X,X,Y,Y]`, prediction `[A,A,B,B,B]`
on line ids 1–5 (`X,A ↦ 0`, `Y,B ↦ 1`). -/
def rowsScenarioB : List Row :=
  [⟨1, some 0, some 0⟩, ⟨2, some 0, some 0⟩, ⟨3, some 0, some 1⟩,
   ⟨4, some 1, some 1⟩, ⟨5, some 1, some 1⟩]

/-- C5: on Scenario B, `get_accuracy` produces `real_pairs = 4`,
`parsed_pairs = 4`, `accurate_pairs = 2`, `accurate_events = 0`, and returns
`precision = recall = f_measure = 0.5` and `accuracy = 0.0`. -/
theorem c5_scenario_b :
    real_pairs rowsScenarioB = 4 ∧ parsed_pairs rowsScenarioB = 4 ∧
    accurate_pairs rowsScenarioB = 2 ∧ accurate_events rowsScenarioB = 0 ∧
    get_accuracy rowsScenarioB = (1/2, 1/2, 1/2, 0) := by
  refine ⟨by decide, by decide, by decide, by decide, ?_⟩
  norm_num [get_accuracy, precision, recall', f_measure, accuracy,
    show real_pairs rowsScenarioB = 4 from by decide,
    show parsed_pairs rowsScenarioB = 4 from by decide,
    show accurate_pairs rowsScenarioB = 2 from by decide,
    show accurate_events rowsScenarioB = 0 from by decide,
    show rowsScenarioB.length = 5 from by decide]

/-- C6: when the ground-truth and predicted line-id sets are disjoint, the
aligned input is empty, and `get_accuracy` returns `(0, 0, 0, 0)` (every zero
denominator resolves to `0` by the zero-fill guards; the function is total, so
no exception can arise). -/
theorem c6_empty_intersection (gt pred : List (Nat × Option Nat))
    (h : ∀ e ∈ gt, ∀ q ∈ pred, e.1 ≠ q.1) :
    alignRows gt pred = [] ∧ get_accuracy (alignRows gt pred) = (0, 0, 0, 0) := by
  have halign : alignRows gt pred = [] := by
    unfold alignRows
    rw [List.map_eq_nil_iff, List.filter_eq_nil_iff]
    intro e he
    have he' : e ∈ gt := List.mem_of_mem_filter he
    have hnotmem : e.1 ∉ pred.map Prod.fst := by
      intro hm
      obtain ⟨q, hq, hq1⟩ := List.mem_map.mp hm
      exact h e he' q hq hq1.symm
    simpa using hnotmem
  refine ⟨halign, ?_⟩
  rw [halign]
  norm_num [get_accuracy, precision, recall', f_measure, accuracy, real_pairs,
    parsed_pairs, accurate_pairs, accurate_events, gtLabels, predLabels,
    valueCounts, pairsOf]

/-- Witness for C6 at a concrete disjoint pair of tables. -/
theorem c6_empty_intersection_witness :
    alignRows [(1, some 5)] [(2, some 7)] = [] ∧
    get_accuracy (alignRows [(1, some 5)] [(2, some 7)]) = (0, 0, 0, 0) :=
  c6_empty_intersection [(1, some 5)] [(2, some 7)] (by decide)

/-- C8: the numeric quadruple of `get_accuracy` does not depend on the `debug`
flag (the trace is diagnostic only), and equals `get_accuracy` itself: the
scores are a deterministic pure function of the aligned input. -/
theorem c8_debug_independent (rows : List Row) (d₁ d₂ : Bool) :
    (get_accuracy_debug rows d₁).1 = (get_accuracy_debug rows d₂).1 ∧
    (get_accuracy_debug rows d₁).1 = get_accuracy rows :=
  ⟨rfl, rfl⟩

/-! ### Helpers about single-label classes -/

theorem filterMap_eq_replicate {α : Type} (l : List α) (f : α → Option Nat) (c : Nat)
    (h : ∀ r ∈ l, f r = some c) : l.filterMap f = List.replicate l.length c := by
  induction l with
  | nil => rfl
  | cons a l ih =>
      rw [List.filterMap_cons, h a (List.mem_cons_self a l)]
      simp only [List.length_cons, List.replicate_succ]
      rw [ih (fun r hr => h r (List.mem_cons_of_mem a hr))]

theorem dedup_replicate {n : Nat} (c : Nat) (hn : n ≠ 0) :
    (List.replicate n c).dedup = [c] := by
  induction n with
  | zero => exact absurd rfl hn
  | succ n ih =>
      cases Nat.eq_zero_or_pos n with
      | inl h0 =>
          subst h0
          rfl
      | inr hpos =>
          rw [List.replicate_succ,
            List.dedup_cons_of_mem (by rw [List.mem_replicate]; omega)]
          exact ih (by omega)

theorem length_filterMap_of_isSome {α β : Type} (l : List α) (f : α → Option β)
    (h : ∀ r ∈ l, f r ≠ none) : (l.filterMap f).length = l.length := by
  induction l with
  | nil => rfl
  | cons a l ih =>
      rw [List.filterMap_cons]
      cases ha : f a with
      | none => exact absurd ha (h a (List.mem_cons_self a l))
      | some b =>
          simp only [List.length_cons]
          rw [ih (fun r hr => h r (List.mem_cons_of_mem a hr))]

theorem pairsOf_valueCounts_replicate (n c : Nat) :
    pairsOf (valueCounts (List.replicate n c)) = comb n 2 := by
  cases n with
  | zero => simp [valueCounts, pairsOf, comb]
  | succ n =>
      unfold valueCounts
      rw [dedup_replicate c (Nat.succ_ne_zero n), pairsOf_eq_sum]
      simp [List.count_replicate_self]

theorem rowsWithPred_ne_nil {rows : List Row} {p : Nat}
    (hp : p ∈ (predLabels rows).dedup) : rowsWithPred rows p ≠ [] := by
  rw [List.mem_dedup] at hp
  obtain ⟨r, hr, hrp⟩ := List.mem_filterMap.mp hp
  intro hnil
  have hmem : r ∈ rowsWithPred rows p := by
    unfold rowsWithPred
    rw [List.mem_filter]
    exact ⟨hr, by simp [hrp]⟩
  rw [hnil] at hmem
  exact absurd hmem (List.not_mem_nil r)

theorem dedup_eq_singleton_iff {l : List Nat} {g : Nat} (hne : l ≠ []) :
    l.dedup = [g] ↔ ∀ x ∈ l, x = g := by
  constructor
  · intro hd x hx
    have : x ∈ l.dedup := List.mem_dedup.mpr hx
    rw [hd] at this
    simpa using this
  · intro hall
    have hrep : l = List.replicate l.length g := List.eq_replicate_of_mem hall
    rw [hrep] at hne ⊢
    exact dedup_replicate g (by simpa using hne)

/-! ### C2: identical labelings -/

theorem predLabels_eq_gtLabels {rows : List Row} (hid : ∀ r ∈ rows, r.pred = r.gt) :
    predLabels rows = gtLabels rows :=
  List.filterMap_congr hid

theorem subGt_eq_replicate_of_id {rows : List Row} (hid : ∀ r ∈ rows, r.pred = r.gt)
    (p : Nat) : subGt rows p = List.replicate ((predLabels rows).count p) p := by
  rw [← length_rowsWithPred_eq_count]
  unfold subGt gtLabels
  apply filterMap_eq_replicate
  intro r hr
  rw [← hid r (List.mem_of_mem_filter hr)]
  exact eq_of_beq (List.mem_filter.mp hr).2

theorem accurate_eq_parsed_of_id {rows : List Row} (hid : ∀ r ∈ rows, r.pred = r.gt) :
    accurate_pairs rows = parsed_pairs rows := by
  unfold accurate_pairs parsed_pairs
  rw [pairsOf_eq_sum, valueCounts, List.map_map]
  refine congrArg List.sum (List.map_congr_left ?_)
  intro p _
  rw [subGt_eq_replicate_of_id hid p, pairsOf_valueCounts_replicate]
  rfl

theorem accurate_events_eq_length_of_id {rows : List Row}
    (hid : ∀ r ∈ rows, r.pred = r.gt) (hnn : ∀ r ∈ rows, r.gt ≠ none) :
    accurate_events rows = rows.length := by
  unfold accurate_events
  have hstep : ((predLabels rows).dedup.map (eventsFor rows)).sum
      = ((predLabels rows).dedup.map (fun p => (predLabels rows).count p)).sum := by
    refine congrArg List.sum (List.map_congr_left ?_)
    intro p hp
    have hn : (predLabels rows).count p ≠ 0 := by
      rw [List.mem_dedup] at hp
      have := List.count_pos_iff.mpr hp
      omega
    simp only [eventsFor]
    rw [subGt_eq_replicate_of_id hid p, dedup_replicate p hn]
    simp only [List.length_singleton, List.headD_cons, if_true]
    rw [length_rowsWithPred_eq_count, ← predLabels_eq_gtLabels hid]
    simp
  rw [hstep, List.sum_map_count_dedup_eq_length]
  exact length_filterMap_of_isSome rows Row.pred
    (fun r hr => by rw [hid r hr]; exact hnn r hr)

/-- C2 counterexample: on a single line labeled identically by both labelings
(`predicted == groundtruth`), `get_accuracy` does not return all ones — the
zero-fill guards make precision, recall and f_measure `0`. -/
theorem c2_counterexample_singleton :
    (∀ r ∈ [Row.mk 1 (some 0) (some 0)], r.pred = r.gt) ∧
    get_accuracy [Row.mk 1 (some 0) (some 0)] ≠ (1, 1, 1, 1) := by
  refine ⟨by decide, fun hcontra => ?_⟩
  have h1 : precision [Row.mk 1 (some 0) (some 0)] = 1 := congrArg Prod.fst hcontra
  have h2 : precision [Row.mk 1 (some 0) (some 0)] = 0 := by
    norm_num [precision,
      show parsed_pairs [Row.mk 1 (some 0) (some 0)] = 0 from by decide]
  rw [h2] at h1
  norm_num at h1

/-- C2 (amended): if the predicted labeling equals the ground-truth labeling,
no label is null, and some label occurs at least twice (so that at least one
pair exists), then `get_accuracy` returns `(1, 1, 1, 1)`. -/
theorem c2_identical_labelings (rows : List Row)
    (hid : ∀ r ∈ rows, r.pred = r.gt)
    (hnn : ∀ r ∈ rows, r.gt ≠ none)
    (hbig : ∃ g, 2 ≤ (gtLabels rows).count g) :
    get_accuracy rows = (1, 1, 1, 1) := by
  obtain ⟨g, hg⟩ := hbig
  have hpg : predLabels rows = gtLabels rows := predLabels_eq_gtLabels hid
  have hap : accurate_pairs rows = parsed_pairs rows := accurate_eq_parsed_of_id hid
  have hrp : real_pairs rows = parsed_pairs rows := by
    unfold real_pairs parsed_pairs
    rw [hpg]
  have hppne : parsed_pairs rows ≠ 0 := by
    have hgmem : g ∈ (predLabels rows).dedup := by
      rw [List.mem_dedup, hpg]
      exact List.count_pos_iff.mp (by omega)
    have hterm : 1 ≤ comb ((predLabels rows).count g) 2 := by
      have h2 : comb 2 2 ≤ comb ((predLabels rows).count g) 2 :=
        comb_mono (by rw [hpg]; omega)
      simpa [comb] using h2
    have hsum : comb ((predLabels rows).count g) 2 ≤ parsed_pairs rows := by
      unfold parsed_pairs
      rw [pairsOf_eq_sum, valueCounts, List.map_map]
      exact List.single_le_sum (fun x _ => Nat.zero_le x) _
        (List.mem_map_of_mem _ hgmem)
    omega
  have hlen : rows.length ≠ 0 := by
    intro h0
    rw [List.eq_nil_of_length_eq_zero h0] at hg
    simp [gtLabels] at hg
  have hev : accurate_events rows = rows.length :=
    accurate_events_eq_length_of_id hid hnn
  have hprec : precision rows = 1 := by
    unfold precision
    rw [if_pos hppne, hap, div_self (by exact_mod_cast hppne)]
  have hrec : recall' rows = 1 := by
    unfold recall'
    rw [hrp, if_pos hppne, hap, div_self (by exact_mod_cast hppne)]
  have hf : f_measure rows = 1 := by
    unfold f_measure
    rw [hprec, hrec]
    norm_num
  have hacc : accuracy rows = 1 := by
    unfold accuracy
    rw [if_pos hlen, hev, div_self (by exact_mod_cast hlen)]
  unfold get_accuracy
  rw [hprec, hrec, hf, hacc]

/-- Witness for the amended C2 at a concrete two-line input. -/
theorem c2_identical_labelings_witness :
    get_accuracy [Row.mk 1 (some 3) (some 3), Row.mk 2 (some 3) (some 3)] = (1, 1, 1, 1) :=
  c2_identical_labelings _ (by decide) (by decide) ⟨3, by decide⟩

/-! ### C7: the LineId column requirement -/

/-- C7: `evaluate` reports an error and produces no scores exactly when the
`LineId` join column is structurally absent from either input; with the column
present in both, it proceeds to score the aligned labelings. -/
theorem c7_lineid_required (t1 t2 : Table) :
    (¬(t1.hasLineId = true ∧ t2.hasLineId = true) →
      evaluate t1 t2 =
        Except.error "Both groundtruth and parsed CSV must have a LineId column!") ∧
    (t1.hasLineId = true → t2.hasLineId = true →
      evaluate t1 t2 =
        Except.ok (f_measure (alignRows t1.entries t2.entries),
                   accuracy (alignRows t1.entries t2.entries))) := by
  constructor
  · intro h
    unfold evaluate
    cases h1 : t1.hasLineId <;> cases h2 : t2.hasLineId <;> simp_all
  · intro h1 h2
    unfold evaluate
    rw [h1, h2]
    rfl

/-- Witness for C7: a concrete missing-column failure and a concrete success. -/
theorem c7_lineid_required_witness :
    evaluate ⟨false, []⟩ ⟨true, []⟩ =
      Except.error "Both groundtruth and parsed CSV must have a LineId column!" ∧
    evaluate ⟨true, []⟩ ⟨true, []⟩ =
      Except.ok (f_measure (alignRows [] []), accuracy (alignRows [] [])) :=
  ⟨(c7_lineid_required ⟨false, []⟩ ⟨true, []⟩).1 (by simp),
   (c7_lineid_required ⟨true, []⟩ ⟨true, []⟩).2 rfl rfl⟩

/-! ### C3: exact-match accuracy -/

theorem subGt_subset_gtLabels {rows : List Row} {p g : Nat} (h : g ∈ subGt rows p) :
    g ∈ gtLabels rows := by
  obtain ⟨r, hr, hrg⟩ := List.mem_filterMap.mp h
  exact List.mem_filterMap.mpr ⟨r, List.mem_of_mem_filter hr, hrg⟩

/-- The spec's exact-match condition: predicted class `p` is an exact match of
ground-truth label `g` iff every member of the class carries label `g` and the
class size equals the total number of aligned lines carrying `g`. -/
def isExactMatch (rows : List Row) (p g : Nat) : Bool :=
  (rowsWithPred rows p).all (fun r => r.gt == some g) &&
    ((rowsWithPred rows p).length == (gtLabels rows).count g)

/-- Member counts summed over exactly the exact-match predicted classes, as
the spec describes `accurate_events`. -/
def specAccurateEvents (rows : List Row) : Nat :=
  ((predLabels rows).dedup.map (fun p =>
    if (gtLabels rows).dedup.any (fun g => isExactMatch rows p g)
    then (rowsWithPred rows p).length else 0)).sum

/-- C3: over an aligned input (whose ground-truth labels are non-null, as
`evaluate` guarantees), `accurate_events` is the summed member count of
exactly the predicted classes that are exact matches of a ground-truth class,
and consequently is at most the total number of ground-truth lines. -/
theorem c3_accurate_events_exact_match (rows : List Row)
    (hnn : ∀ r ∈ rows, r.gt ≠ none) :
    accurate_events rows = specAccurateEvents rows ∧
    accurate_events rows ≤ rows.length := by
  refine ⟨?_, accurate_events_le_length rows⟩
  unfold accurate_events specAccurateEvents
  refine congrArg List.sum (List.map_congr_left ?_)
  intro p hp
  have hsubne : rowsWithPred rows p ≠ [] := rowsWithPred_ne_nil hp
  have hmemrows : ∀ r ∈ rowsWithPred rows p, r ∈ rows :=
    fun r hr => List.mem_of_mem_filter hr
  have hsglen : (subGt rows p).length = (rowsWithPred rows p).length :=
    length_filterMap_of_isSome _ _ (fun r hr => hnn r (hmemrows r hr))
  have hsubpos : 0 < (rowsWithPred rows p).length := List.length_pos.mpr hsubne
  by_cases hany : (gtLabels rows).dedup.any (fun g => isExactMatch rows p g) = true
  · rw [if_pos hany]
    obtain ⟨g, hgmem, hg⟩ := List.any_eq_true.mp hany
    rw [isExactMatch, Bool.and_eq_true] at hg
    obtain ⟨hall, hlenb⟩ := hg
    have hall' : ∀ r ∈ rowsWithPred rows p, r.gt = some g :=
      fun r hr => eq_of_beq (List.all_eq_true.mp hall r hr)
    have hlen' : (rowsWithPred rows p).length = (gtLabels rows).count g :=
      beq_iff_eq.mp hlenb
    have hsg : subGt rows p = List.replicate (rowsWithPred rows p).length g :=
      filterMap_eq_replicate _ _ _ hall'
    simp only [eventsFor]
    rw [hsg, dedup_replicate g (by omega)]
    simp only [List.length_singleton, List.headD_cons, if_true]
    rw [if_pos hlen']
  · rw [if_neg hany]
    simp only [eventsFor]
    by_cases hvc : (subGt rows p).dedup.length = 1
    · obtain ⟨g, hdedup⟩ := List.length_eq_one.mp hvc
      have hsgne : subGt rows p ≠ [] := by
        refine List.length_pos.mp ?_
        omega
      have hallg : ∀ x ∈ subGt rows p, x = g :=
        (dedup_eq_singleton_iff hsgne).mp hdedup
      have hgt : ∀ r ∈ rowsWithPred rows p, r.gt = some g := by
        intro r hr
        cases hrg : r.gt with
        | none => exact absurd hrg (hnn r (hmemrows r hr))
        | some x =>
            rw [hallg x (List.mem_filterMap.mpr ⟨r, hr, hrg⟩)]
      rw [hdedup]
      simp only [List.length_singleton, List.headD_cons, if_true]
      by_cases hc : (rowsWithPred rows p).length = (gtLabels rows).count g
      · exfalso
        have hmatch : isExactMatch rows p g = true := by
          rw [isExactMatch, Bool.and_eq_true]
          refine ⟨List.all_eq_true.mpr (fun r hr => ?_), beq_iff_eq.mpr hc⟩
          rw [hgt r hr]
          exact beq_self_eq_true _
        have hgmem' : g ∈ (gtLabels rows).dedup := by
          rw [List.mem_dedup]
          apply subGt_subset_gtLabels (p := p)
          obtain ⟨x, hx⟩ := List.exists_mem_of_ne_nil _ hsgne
          rw [← hallg x hx]
          exact hx
        exact hany (List.any_eq_true.mpr ⟨g, hgmem', hmatch⟩)
      · rw [if_neg hc]
    · rw [if_neg hvc]

/-- Witness for C3 at a concrete mixed input. -/
theorem c3_accurate_events_exact_match_witness :
    accurate_events
        [Row.mk 1 (some 0) (some 5), Row.mk 2 (some 0) (some 5), Row.mk 3 (some 1) (some 6)]
      = specAccurateEvents
        [Row.mk 1 (some 0) (some 5), Row.mk 2 (some 0) (some 5), Row.mk 3 (some 1) (some 6)] ∧
    accurate_events
        [Row.mk 1 (some 0) (some 5), Row.mk 2 (some 0) (some 5), Row.mk 3 (some 1) (some 6)]
      ≤ ([Row.mk 1 (some 0) (some 5), Row.mk 2 (some 0) (some 5),
          Row.mk 3 (some 1) (some 6)] : List Row).length :=
  c3_accurate_events_exact_match _ (by decide)

/-! ### C4: invariance under relabeling and reordering -/

/-- Rename the ground-truth label alphabet by `f` and the predicted label
alphabet by `g`, keeping line ids and the grouping structure. -/
def mapRows (f g : Nat → Nat) (rows : List Row) : List Row :=
  rows.map (fun r => ⟨r.id, r.gt.map f, r.pred.map g⟩)

theorem gtLabels_mapRows (f g : Nat → Nat) (rows : List Row) :
    gtLabels (mapRows f g rows) = (gtLabels rows).map f := by
  unfold gtLabels mapRows
  rw [List.filterMap_map, List.map_filterMap]
  rfl

theorem predLabels_mapRows (f g : Nat → Nat) (rows : List Row) :
    predLabels (mapRows f g rows) = (predLabels rows).map g := by
  unfold predLabels mapRows
  rw [List.filterMap_map, List.map_filterMap]
  rfl

theorem dedup_map_inj {g : Nat → Nat} (hg : Function.Injective g) (l : List Nat) :
    (l.map g).dedup = l.dedup.map g := by
  induction l with
  | nil => rfl
  | cons a l ih =>
      by_cases ha : a ∈ l
      · rw [List.map_cons, List.dedup_cons_of_mem (List.mem_map_of_mem g ha),
          List.dedup_cons_of_mem ha, ih]
      · rw [List.map_cons, List.dedup_cons_of_not_mem ha, List.map_cons, ← ih]
        refine List.dedup_cons_of_not_mem (fun hm => ?_)
        obtain ⟨x, hx, hgx⟩ := List.mem_map.mp hm
        exact ha (hg hgx ▸ hx)

theorem valueCounts_map_inj {f : Nat → Nat} (hf : Function.Injective f) (l : List Nat) :
    valueCounts (l.map f) = valueCounts l := by
  unfold valueCounts
  rw [dedup_map_inj hf, List.map_map]
  refine List.map_congr_left ?_
  intro x _
  simp only [Function.comp]
  exact List.count_map_of_injective l f hf x

theorem rowsWithPred_mapRows {g : Nat → Nat} (hg : Function.Injective g)
    (f : Nat → Nat) (rows : List Row) (p : Nat) :
    rowsWithPred (mapRows f g rows) (g p) = mapRows f g (rowsWithPred rows p) := by
  unfold rowsWithPred mapRows
  rw [List.filter_map]
  refine congrArg _ (List.filter_congr ?_)
  intro r _
  cases hr : r.pred with
  | none => simp [hr]
  | some x => simp [hr, hg.eq_iff]

theorem subGt_mapRows {g : Nat → Nat} (hg : Function.Injective g)
    (f : Nat → Nat) (rows : List Row) (p : Nat) :
    subGt (mapRows f g rows) (g p) = (subGt rows p).map f := by
  unfold subGt
  rw [rowsWithPred_mapRows hg f rows p]
  exact gtLabels_mapRows f g (rowsWithPred rows p)

theorem mapRows_length (f g : Nat → Nat) (rows : List Row) :
    (mapRows f g rows).length = rows.length :=
  List.length_map _ _

theorem real_pairs_mapRows {f : Nat → Nat} (hf : Function.Injective f)
    (g : Nat → Nat) (rows : List Row) :
    real_pairs (mapRows f g rows) = real_pairs rows := by
  unfold real_pairs
  rw [gtLabels_mapRows, valueCounts_map_inj hf]

theorem parsed_pairs_mapRows (f : Nat → Nat) {g : Nat → Nat}
    (hg : Function.Injective g) (rows : List Row) :
    parsed_pairs (mapRows f g rows) = parsed_pairs rows := by
  unfold parsed_pairs
  rw [predLabels_mapRows, valueCounts_map_inj hg]

theorem accurate_pairs_mapRows {f g : Nat → Nat} (hf : Function.Injective f)
    (hg : Function.Injective g) (rows : List Row) :
    accurate_pairs (mapRows f g rows) = accurate_pairs rows := by
  unfold accurate_pairs
  rw [predLabels_mapRows, dedup_map_inj hg, List.map_map]
  refine congrArg List.sum (List.map_congr_left ?_)
  intro p _
  simp only [Function.comp]
  rw [subGt_mapRows hg f rows p, valueCounts_map_inj hf]

theorem eventsFor_mapRows {f g : Nat → Nat} (hf : Function.Injective f)
    (hg : Function.Injective g) (rows : List Row) (p : Nat) :
    eventsFor (mapRows f g rows) (g p) = eventsFor rows p := by
  simp only [eventsFor]
  rw [subGt_mapRows hg f rows p, rowsWithPred_mapRows hg f rows p,
      gtLabels_mapRows f g rows, dedup_map_inj hf, mapRows_length, List.length_map]
  by_cases h1 : (subGt rows p).dedup.length = 1
  · obtain ⟨x, hx⟩ := List.length_eq_one.mp h1
    rw [hx]
    simp only [List.map_cons, List.map_nil, List.headD_cons, List.length_singleton,
      if_true]
    simp only [List.count_map_of_injective _ f hf x]
  · rw [if_neg h1, if_neg h1]

theorem accurate_events_mapRows {f g : Nat → Nat} (hf : Function.Injective f)
    (hg : Function.Injective g) (rows : List Row) :
    accurate_events (mapRows f g rows) = accurate_events rows := by
  unfold accurate_events
  rw [predLabels_mapRows, dedup_map_inj hg, List.map_map]
  refine congrArg List.sum (List.map_congr_left ?_)
  intro p _
  simp only [Function.comp]
  exact eventsFor_mapRows hf hg rows p

theorem get_accuracy_mapRows {f g : Nat → Nat} (hf : Function.Injective f)
    (hg : Function.Injective g) (rows : List Row) :
    get_accuracy (mapRows f g rows) = get_accuracy rows := by
  have hprec : precision (mapRows f g rows) = precision rows := by
    unfold precision
    rw [parsed_pairs_mapRows f hg rows, accurate_pairs_mapRows hf hg rows]
  have hrec : recall' (mapRows f g rows) = recall' rows := by
    unfold recall'
    rw [real_pairs_mapRows hf g rows, accurate_pairs_mapRows hf hg rows]
  have hfm : f_measure (mapRows f g rows) = f_measure rows := by
    unfold f_measure
    rw [hprec, hrec]
  have hacc : accuracy (mapRows f g rows) = accuracy rows := by
    unfold accuracy
    rw [accurate_events_mapRows hf hg rows, mapRows_length]
  unfold get_accuracy
  rw [hprec, hrec, hfm, hacc]

theorem pairsOf_valueCounts_perm {l₁ l₂ : List Nat} (h : l₁.Perm l₂) :
    pairsOf (valueCounts l₁) = pairsOf (valueCounts l₂) := by
  rw [pairsOf_valueCounts, pairsOf_valueCounts, Multiset.coe_eq_coe.mpr h]

theorem eventsFor_perm {rows₁ rows₂ : List Row} (h : rows₁.Perm rows₂) (p : Nat) :
    eventsFor rows₁ p = eventsFor rows₂ p := by
  have hsub : (rowsWithPred rows₁ p).Perm (rowsWithPred rows₂ p) := h.filter _
  have hsg : (subGt rows₁ p).Perm (subGt rows₂ p) := hsub.filterMap _
  have hdd : ((subGt rows₁ p).dedup).Perm ((subGt rows₂ p).dedup) := hsg.dedup
  simp only [eventsFor]
  by_cases h1 : (subGt rows₁ p).dedup.length = 1
  · obtain ⟨g, hg⟩ := List.length_eq_one.mp h1
    have hg₂ : (subGt rows₂ p).dedup = [g] := by
      have h' := hdd.symm
      rw [hg] at h'
      exact List.perm_singleton.mp h'
    have hcnt : (gtLabels rows₁).count g = (gtLabels rows₂).count g :=
      (h.filterMap Row.gt).count_eq g
    rw [hg, hg₂, hsub.length_eq]
    simp only [List.headD_cons]
    simp only [hcnt]
  · rw [if_neg h1, if_neg (fun hc => h1 (by rw [hdd.length_eq]; exact hc))]

theorem get_accuracy_perm {rows₁ rows₂ : List Row} (h : rows₁.Perm rows₂) :
    get_accuracy rows₁ = get_accuracy rows₂ := by
  have hgt : (gtLabels rows₁).Perm (gtLabels rows₂) := h.filterMap _
  have hpred : (predLabels rows₁).Perm (predLabels rows₂) := h.filterMap _
  have hdd : ((predLabels rows₁).dedup).Perm ((predLabels rows₂).dedup) := hpred.dedup
  have hrp : real_pairs rows₁ = real_pairs rows₂ := pairsOf_valueCounts_perm hgt
  have hpp : parsed_pairs rows₁ = parsed_pairs rows₂ := pairsOf_valueCounts_perm hpred
  have hap : accurate_pairs rows₁ = accurate_pairs rows₂ := by
    unfold accurate_pairs
    calc ((predLabels rows₁).dedup.map (fun p => pairsOf (valueCounts (subGt rows₁ p)))).sum
        = ((predLabels rows₁).dedup.map
            (fun p => pairsOf (valueCounts (subGt rows₂ p)))).sum := by
          refine congrArg List.sum (List.map_congr_left ?_)
          intro p _
          exact pairsOf_valueCounts_perm ((h.filter _).filterMap _)
      _ = ((predLabels rows₂).dedup.map
            (fun p => pairsOf (valueCounts (subGt rows₂ p)))).sum :=
          (hdd.map _).sum_eq
  have hae : accurate_events rows₁ = accurate_events rows₂ := by
    unfold accurate_events
    calc ((predLabels rows₁).dedup.map (eventsFor rows₁)).sum
        = ((predLabels rows₁).dedup.map (eventsFor rows₂)).sum := by
          refine congrArg List.sum (List.map_congr_left ?_)
          intro p _
          exact eventsFor_perm h p
      _ = ((predLabels rows₂).dedup.map (eventsFor rows₂)).sum := (hdd.map _).sum_eq
  have hlen : rows₁.length = rows₂.length := h.length_eq
  have hprec : precision rows₁ = precision rows₂ := by
    unfold precision
    rw [hpp, hap]
  have hrec : recall' rows₁ = recall' rows₂ := by
    unfold recall'
    rw [hrp, hap]
  have hfm : f_measure rows₁ = f_measure rows₂ := by
    unfold f_measure
    rw [hprec, hrec]
  have hacc : accuracy rows₁ = accuracy rows₂ := by
    unfold accuracy
    rw [hae, hlen]
  unfold get_accuracy
  rw [hprec, hrec, hfm, hacc]

/-- C4: the four scores are invariant under any injective renaming of the
ground-truth label alphabet (`f`) and of the predicted label alphabet (`g`),
and under any reordering of the aligned rows: scoring depends only on which
lines share a label, never on the label values. -/
theorem c4_relabel_reorder_invariant (f g : Nat → Nat) (rows rows₂ : List Row)
    (hf : Function.Injective f) (hg : Function.Injective g)
    (hperm : rows₂.Perm (mapRows f g rows)) :
    get_accuracy rows₂ = get_accuracy rows := by
  rw [get_accuracy_perm hperm, get_accuracy_mapRows hf hg]

/-- Witness for C4: relabel `gt` by `+1` and `pred` by `+2`, and reverse the
rows; the scores agree with the original input's. -/
theorem c4_relabel_reorder_invariant_witness :
    get_accuracy [Row.mk 2 (some 1) (some 3), Row.mk 1 (some 1) (some 2)] =
      get_accuracy [Row.mk 1 (some 0) (some 0), Row.mk 2 (some 0) (some 1)] :=
  c4_relabel_reorder_invariant (fun n => n + 1) (fun n => n + 2)
    [Row.mk 1 (some 0) (some 0), Row.mk 2 (some 0) (some 1)]
    [Row.mk 2 (some 1) (some 3), Row.mk 1 (some 1) (some 2)]
    (fun a b hab => by simpa using hab) (fun a b hab => by simpa using hab) (by decide)

/-! ### C10: asymmetric null filtering -/

theorem mem_alignRows_gt_ne_none (gt pred : List (Nat × Option Nat)) :
    ∀ r ∈ alignRows gt pred, r.gt ≠ none := by
  intro r hr
  simp only [alignRows] at hr
  obtain ⟨e, he, hre⟩ := List.mem_map.mp hr
  have he' : e ∈ gt.filter (fun e => !(e.2 == none)) := List.mem_of_mem_filter he
  have h2 : (!(e.2 == none)) = true := (List.mem_filter.mp he').2
  rw [← hre]
  simpa using h2

theorem alignRows_keeps_null_pred (gt pred : List (Nat × Option Nat)) (i g : Nat)
    (hgt : (i, some g) ∈ gt)
    (hfind : pred.find? (fun q => q.1 == i) = some (i, none)) :
    Row.mk i (some g) none ∈ alignRows gt pred := by
  simp only [alignRows]
  have h1 : (i, some g) ∈ gt.filter (fun e => !(e.2 == none)) :=
    List.mem_filter.mpr ⟨hgt, by simp⟩
  have hmem : (i, (none : Option Nat)) ∈ pred := List.mem_of_find?_eq_some hfind
  have h2 : (i, some g) ∈ (gt.filter (fun e => !(e.2 == none))).filter
      (fun e => (pred.map Prod.fst).contains e.1) := by
    refine List.mem_filter.mpr ⟨h1, ?_⟩
    have h3 : i ∈ pred.map Prod.fst := List.mem_map_of_mem Prod.fst hmem
    simpa using h3
  refine List.mem_map.mpr ⟨(i, some g), h2, ?_⟩
  rw [hfind]
  rfl

theorem rowsWithPred_filter_some (rows : List Row) (p : Nat) :
    rowsWithPred (rows.filter (fun r => !(r.pred == none))) p = rowsWithPred rows p := by
  unfold rowsWithPred
  rw [List.filter_filter]
  refine List.filter_congr ?_
  intro r _
  cases hr : r.pred with
  | none => simp [hr]
  | some x => simp [hr]

theorem predLabels_filter_some (rows : List Row) :
    predLabels (rows.filter (fun r => !(r.pred == none))) = predLabels rows := by
  unfold predLabels
  induction rows with
  | nil => rfl
  | cons a l ih =>
      rw [List.filter_cons]
      cases ha : a.pred with
      | none => simp [List.filterMap_cons, ha, ih]
      | some x => simp [List.filterMap_cons, ha, ih]

theorem subGt_filter_some (rows : List Row) (p : Nat) :
    subGt (rows.filter (fun r => !(r.pred == none))) p = subGt rows p := by
  unfold subGt
  rw [rowsWithPred_filter_some]

theorem gtLabels_filter_sublist (rows : List Row) (q : Row → Bool) :
    (gtLabels (rows.filter q)).Sublist (gtLabels rows) :=
  List.Sublist.filterMap _ (List.filter_sublist rows)

theorem real_pairs_filter_le (rows : List Row) (q : Row → Bool) :
    real_pairs (rows.filter q) ≤ real_pairs rows := by
  unfold real_pairs
  rw [pairsOf_valueCounts, pairsOf_valueCounts]
  exact pcM_mono (Multiset.coe_le.mpr (gtLabels_filter_sublist rows q).subperm)

theorem parsed_pairs_filter_some (rows : List Row) :
    parsed_pairs (rows.filter (fun r => !(r.pred == none))) = parsed_pairs rows := by
  unfold parsed_pairs
  rw [predLabels_filter_some]

theorem accurate_pairs_filter_some (rows : List Row) :
    accurate_pairs (rows.filter (fun r => !(r.pred == none))) = accurate_pairs rows := by
  unfold accurate_pairs
  rw [predLabels_filter_some]
  refine congrArg List.sum (List.map_congr_left ?_)
  intro p _
  rw [subGt_filter_some]

theorem eventsFor_filter_some_ge {rows : List Row} (hnn : ∀ r ∈ rows, r.gt ≠ none)
    (p : Nat) :
    eventsFor rows p ≤ eventsFor (rows.filter (fun r => !(r.pred == none))) p := by
  simp only [eventsFor]
  rw [rowsWithPred_filter_some, subGt_filter_some]
  by_cases h1 : (subGt rows p).dedup.length = 1
  · obtain ⟨g, hg⟩ := List.length_eq_one.mp h1
    rw [hg]
    simp only [List.length_singleton, List.headD_cons, if_true]
    by_cases hc : (rowsWithPred rows p).length = (gtLabels rows).count g
    · have hsgne : subGt rows p ≠ [] := by
        intro h0
        rw [h0] at hg
        simp at hg
      have hallg : ∀ x ∈ subGt rows p, x = g := (dedup_eq_singleton_iff hsgne).mp hg
      have hcount_sub : (subGt rows p).count g = (subGt rows p).length :=
        List.count_eq_length.mpr (fun b hb => (hallg b hb).symm)
      have hsgl : (subGt rows p).length = (rowsWithPred rows p).length :=
        length_filterMap_of_isSome _ _ (fun r hr => hnn r (List.mem_of_mem_filter hr))
      have hsub_sublist : (subGt rows p).Sublist
          (gtLabels (rows.filter (fun r => !(r.pred == none)))) := by
        rw [← subGt_filter_some rows p]
        exact gtLabels_filter_sublist _ _
      have hlow : (rowsWithPred rows p).length
          ≤ (gtLabels (rows.filter (fun r => !(r.pred == none)))).count g := by
        calc (rowsWithPred rows p).length
            = (subGt rows p).count g := by rw [hcount_sub, hsgl]
          _ ≤ _ := hsub_sublist.count_le g
      have hup : (gtLabels (rows.filter (fun r => !(r.pred == none)))).count g
          ≤ (gtLabels rows).count g := (gtLabels_filter_sublist rows _).count_le g
      have hc' : (rowsWithPred rows p).length
          = (gtLabels (rows.filter (fun r => !(r.pred == none)))).count g := by omega
      rw [if_pos hc, if_pos hc']
    · rw [if_neg hc]
      exact Nat.zero_le _
  · rw [if_neg h1, if_neg h1]

theorem accurate_events_filter_some_ge {rows : List Row}
    (hnn : ∀ r ∈ rows, r.gt ≠ none) :
    accurate_events rows
      ≤ accurate_events (rows.filter (fun r => !(r.pred == none))) := by
  unfold accurate_events
  rw [predLabels_filter_some]
  exact List.sum_le_sum (fun p _ => eventsFor_filter_some_ge hnn p)

theorem guarded_ratio_le {a b c : Nat} (hab : a ≤ b) (hbc : b ≤ c) :
    (if c ≠ 0 then (a : ℚ) / c else 0) ≤ if b ≠ 0 then (a : ℚ) / b else 0 := by
  by_cases hb : b = 0
  · have ha : a = 0 := by omega
    subst ha
    by_cases hc : c = 0 <;> simp [hb, hc]
  · have hc : c ≠ 0 := by omega
    rw [if_pos hc, if_pos hb]
    exact div_le_div_of_nonneg_left (by positivity)
      (by exact_mod_cast Nat.pos_of_ne_zero hb) (by exact_mod_cast hbc)

theorem guarded_accuracy_le {a a' l l' : Nat} (ha : a ≤ a') (hl : l' ≤ l)
    (hb : a' ≤ l') :
    (if l ≠ 0 then (a : ℚ) / l else 0) ≤ if l' ≠ 0 then (a' : ℚ) / l' else 0 := by
  by_cases hl' : l' = 0
  · have h0 : a = 0 := by omega
    subst h0
    by_cases h1 : l = 0 <;> simp [h1, hl']
  · have hlne : l ≠ 0 := by omega
    rw [if_pos hlne, if_pos hl']
    have hl'pos : (0 : ℚ) < l' := by exact_mod_cast Nat.pos_of_ne_zero hl'
    have hlpos : (0 : ℚ) < l := by exact_mod_cast Nat.pos_of_ne_zero hlne
    have ha' : (a : ℚ) ≤ (a' : ℚ) := by exact_mod_cast ha
    have hl'' : (l' : ℚ) ≤ (l : ℚ) := by exact_mod_cast hl
    gcongr

theorem f_measure_mono_in_recall {p r r' : ℚ} (hp0 : 0 ≤ p) (hr0 : 0 ≤ r)
    (hr'0 : 0 ≤ r') (hrr : r ≤ r') :
    (if p + r ≠ 0 then 2 * p * r / (p + r) else 0)
      ≤ if p + r' ≠ 0 then 2 * p * r' / (p + r') else 0 := by
  by_cases h : p + r = 0
  · rw [if_neg (not_not_intro h)]
    by_cases h' : p + r' = 0
    · rw [if_neg (not_not_intro h')]
    · rw [if_pos h']
      have hpos : 0 < p + r' := lt_of_le_of_ne (by linarith) (Ne.symm h')
      exact div_nonneg (by nlinarith) hpos.le
  · rw [if_pos h]
    have hpr : 0 < p + r := lt_of_le_of_ne (by linarith) (Ne.symm h)
    have hpr' : 0 < p + r' := by linarith
    rw [if_pos hpr'.ne']
    rw [div_le_div_iff hpr hpr']
    nlinarith [mul_nonneg (mul_nonneg hp0 hp0) (sub_nonneg.mpr hrr)]

/-- C10: alignment removes exactly the ground-truth entries with a null label
(every aligned row has a non-null ground-truth label), while a predicted entry
with a null label that shares a line id with labeled ground truth remains in
the aligned set; such rows enter the accuracy denominator but form no
predicted class, so relative to dropping them they leave precision unchanged
and can only lower recall, f_measure and accuracy. -/
theorem c10_null_pred_asymmetry :
    (∀ gt pred : List (Nat × Option Nat), ∀ r ∈ alignRows gt pred, r.gt ≠ none) ∧
    (∀ gt pred : List (Nat × Option Nat), ∀ i g : Nat,
      (i, some g) ∈ gt → pred.find? (fun q => q.1 == i) = some (i, none) →
      Row.mk i (some g) none ∈ alignRows gt pred) ∧
    (∀ rows : List Row, (∀ r ∈ rows, r.gt ≠ none) →
      precision rows = precision (rows.filter (fun r => !(r.pred == none))) ∧
      recall' rows ≤ recall' (rows.filter (fun r => !(r.pred == none))) ∧
      f_measure rows ≤ f_measure (rows.filter (fun r => !(r.pred == none))) ∧
      accuracy rows ≤ accuracy (rows.filter (fun r => !(r.pred == none)))) := by
  refine ⟨mem_alignRows_gt_ne_none, alignRows_keeps_null_pred, ?_⟩
  intro rows hnn
  have hprec : precision rows
      = precision (rows.filter (fun r => !(r.pred == none))) := by
    unfold precision
    rw [parsed_pairs_filter_some, accurate_pairs_filter_some]
  have hrec : recall' rows ≤ recall' (rows.filter (fun r => !(r.pred == none))) := by
    unfold recall'
    rw [accurate_pairs_filter_some]
    refine guarded_ratio_le ?_ (real_pairs_filter_le rows _)
    rw [← accurate_pairs_filter_some rows]
    exact accurate_le_real _
  have hf : f_measure rows ≤ f_measure (rows.filter (fun r => !(r.pred == none))) := by
    unfold f_measure
    rw [← hprec]
    exact f_measure_mono_in_recall (precision_bounds rows).1 (recall_bounds rows).1
      (recall_bounds _).1 hrec
  have hacc : accuracy rows ≤ accuracy (rows.filter (fun r => !(r.pred == none))) := by
    unfold accuracy
    exact guarded_accuracy_le (accurate_events_filter_some_ge hnn)
      (List.length_filter_le _ _) (accurate_events_le_length _)
  exact ⟨hprec, hrec, hf, hacc⟩

/-- Witness for C10: a null-predicted row survives alignment, and on a
concrete input the score comparison holds. -/
theorem c10_null_pred_asymmetry_witness :
    Row.mk 1 (some 5) none ∈ alignRows [(1, some 5)] [(1, none)] ∧
    (precision [Row.mk 1 (some 0) (some 0), Row.mk 2 (some 0) (some 0),
        Row.mk 3 (some 0) none]
      = precision ([Row.mk 1 (some 0) (some 0), Row.mk 2 (some 0) (some 0),
          Row.mk 3 (some 0) none].filter (fun r => !(r.pred == none))) ∧
    recall' [Row.mk 1 (some 0) (some 0), Row.mk 2 (some 0) (some 0),
        Row.mk 3 (some 0) none]
      ≤ recall' ([Row.mk 1 (some 0) (some 0), Row.mk 2 (some 0) (some 0),
          Row.mk 3 (some 0) none].filter (fun r => !(r.pred == none))) ∧
    f_measure [Row.mk 1 (some 0) (some 0), Row.mk 2 (some 0) (some 0),
        Row.mk 3 (some 0) none]
      ≤ f_measure ([Row.mk 1 (some 0) (some 0), Row.mk 2 (some 0) (some 0),
          Row.mk 3 (some 0) none].filter (fun r => !(r.pred == none))) ∧
    accuracy [Row.mk 1 (some 0) (some 0), Row.mk 2 (some 0) (some 0),
        Row.mk 3 (some 0) none]
      ≤ accuracy ([Row.mk 1 (some 0) (some 0), Row.mk 2 (some 0) (some 0),
          Row.mk 3 (some 0) none].filter (fun r => !(r.pred == none)))) :=
  ⟨c10_null_pred_asymmetry.2.1 [(1, some 5)] [(1, none)] 1 5 (by decide) (by decide),
   c10_null_pred_asymmetry.2.2
     [Row.mk 1 (some 0) (some 0), Row.mk 2 (some 0) (some 0), Row.mk 3 (some 0) none]
     (by decide)⟩

/-! ### C9: the float64 arithmetic of `scipy.special.comb` -/

/-- Binary logarithm with explicit fuel (64 suffices for every value reached
here): `log2fuel 64 v = ⌊log₂ v⌋` for `1 ≤ v < 2^64`. -/
def log2fuel : Nat → Nat → Nat
  | 0, _ => 0
  | fuel + 1, v => if v ≤ 1 then 0 else log2fuel fuel (v / 2) + 1

/-- Rounding of a natural number to the nearest IEEE-754 binary64 value
(53 significant bits, ties to even), returned as the exact natural number it
denotes.  Valid for `v < 2^64`, far below any overflow. -/
def fl53 (v : Nat) : Nat :=
  let e := log2fuel 64 v
  if e ≤ 52 then v
  else
    let s := e - 52
    let q := v / 2 ^ s
    let r := v % 2 ^ s
    let half := 2 ^ (s - 1)
    if r < half then q * 2 ^ s
    else if half < r then (q + 1) * 2 ^ s
    else (if q % 2 = 0 then q else q + 1) * 2 ^ s

/-- `scipy.special.comb(n, 2)` with the default `exact=False`: scipy's binom
takes its small-integer path, multiplying `(n-1)·n` in float64 and dividing
by 2 (the halving is exact in float64 at these magnitudes). -/
def combFloat2 (n : Nat) : Nat := fl53 (fl53 (n - 1) * fl53 n) / 2

/-- The pair-count accumulation loop of `get_accuracy` as actually executed
with scipy's comb: each `pairs += comb(count, 2)` is a float64 addition. -/
def pairsOfFloat (counts : List Nat) : Nat :=
  counts.foldl (fun acc c => if 1 < c then fl53 (acc + combFloat2 c) else acc) 0

/-- C9 evidence: `pairsOf` is the exact-integer pair count the spec requires,
but the code's `scipy.special.comb(count, 2)` computes in float64
(`pairsOfFloat`); on a single class of size `2^28 + 2 = 268435458` the two
differ — `C(n, 2) = 36028797421617153` while float64 yields
`36028797421617152` — so the accumulated counts are not exact for all class
sizes. -/
theorem pairsOf_singleton {c : Nat} (hc : 1 < c) : pairsOf [c] = comb c 2 := by
  unfold pairsOf
  simp only [List.map_cons, List.map_nil, List.sum_cons, List.sum_nil, if_pos hc,
    Nat.add_zero]

theorem c9_float_comb_inexact :
    pairsOf [2 ^ 28 + 2] = 36028797421617153 ∧
    pairsOfFloat [2 ^ 28 + 2] = 36028797421617152 ∧
    pairsOfFloat [2 ^ 28 + 2] ≠ pairsOf [2 ^ 28 + 2] := by
  have h1 : pairsOf [2 ^ 28 + 2] = 36028797421617153 := by
    rw [pairsOf_singleton (by norm_num), comb, Nat.choose_two_right]
    norm_num
  have h2 : pairsOfFloat [2 ^ 28 + 2] = 36028797421617152 := by decide
  refine ⟨h1, h2, ?_⟩
  rw [h1, h2]
  norm_num
